import Mathlib

/-!
Verification of the algo-whisperer transcription pipeline core.

This file gives a shallow embedding, in Lean 4, of the algorithmic core of
the repository: the overlap-aware audio splitter (`splitAudioIntoChunks` in
the ffmpeg helper module), the chunk merge (`mergeChunkSegments`), the
chunking decision and response metadata of the `/transcribe` route, the
failure-path cleanup behaviour of that route, and the speaker normalizer
(`processTranscription`).  Timestamps (JS numbers) are modelled as rationals;
JS arrays as lists; the stateful loops as explicit recursion with the same
branch structure as the source.  Theorems then settle the specification
claims about these functions.
-/

namespace AlgoWhisperer

/-- A transcript segment as produced by the transcription backend and carried
through the merge: `start`/`end` in seconds (the JS field `end` is spelled
`endTime` here because `end` is a Lean keyword), plus text and raw speaker
label. -/
structure Seg where
  start : ℚ
  endTime : ℚ
  text : String
  speaker : String
deriving DecidableEq, Repr

/-- Embedding of `mergeChunkSegments(existingSegments, newSegments,
chunkStartTime, overlapSeconds)` from `src/server/routes/transcribe.js`
(lines 316–332): if the accumulator is empty return the new segments;
otherwise keep existing segments with `end <= overlapStart + 1` and new
segments with `start >= overlapStart - 1`, concatenated in that order.
The `overlapSeconds` parameter is accepted and unused, exactly as in the
source. -/
def mergeChunkSegments (existingSegments newSegments : List Seg)
    (chunkStartTime _overlapSeconds : ℚ) : List Seg :=
  if existingSegments.length = 0 then
    newSegments
  else
    let overlapStart := chunkStartTime
    let filteredExisting :=
      existingSegments.filter (fun seg => decide (seg.endTime ≤ overlapStart + 1))
    let filteredNew :=
      newSegments.filter (fun seg => decide (seg.start ≥ overlapStart - 1))
    filteredExisting ++ filteredNew

/-- C1: for every call `merge(accumulated, newSegments, chunkStartTime,
overlapSeconds)`: if `accumulated` is empty the result is exactly
`newSegments` unchanged; otherwise, with `overlapStart = chunkStartTime`,
the result is the accumulated segments with every segment whose
`end > overlapStart + 1` dropped, followed by the new segments with every
segment whose `start < overlapStart - 1` dropped, concatenated in that
order. -/
theorem mergeChunkSegments_filters (acc new : List Seg) (s o : ℚ) :
    (acc = [] → mergeChunkSegments acc new s o = new) ∧
    (acc ≠ [] → mergeChunkSegments acc new s o =
      acc.filter (fun seg => decide (¬ seg.endTime > s + 1)) ++
      new.filter (fun seg => decide (¬ seg.start < s - 1))) := by
  constructor
  · intro h
    subst h
    simp [mergeChunkSegments]
  · intro h
    have hlen : ¬ acc.length = 0 := by
      simpa [List.length_eq_zero] using h
    have h1 : acc.filter (fun seg => decide (¬ seg.endTime > s + 1)) =
        acc.filter (fun seg => decide (seg.endTime ≤ s + 1)) := by
      apply List.filter_congr
      intro a _
      simp [not_lt]
    have h2 : new.filter (fun seg => decide (¬ seg.start < s - 1)) =
        new.filter (fun seg => decide (seg.start ≥ s - 1)) := by
      apply List.filter_congr
      intro a _
      simp [not_lt, ge_iff_le]
    simp only [mergeChunkSegments, if_neg hlen, h1, h2]

/-- Witness for C1: both branches of `mergeChunkSegments_filters` applied at
concrete inputs. -/
theorem mergeChunkSegments_filters_witness :
    mergeChunkSegments [] [⟨0, 1, "a", "A"⟩] 5 30 = [⟨0, 1, "a", "A"⟩] ∧
    mergeChunkSegments [⟨0, 1, "a", "A"⟩] [⟨4, 6, "b", "B"⟩] 5 30 =
      List.filter (fun seg => decide (¬ seg.endTime > 5 + 1)) [⟨0, 1, "a", "A"⟩] ++
      List.filter (fun seg => decide (¬ seg.start < 5 - 1)) [⟨4, 6, "b", "B"⟩] :=
  ⟨(mergeChunkSegments_filters [] [⟨0, 1, "a", "A"⟩] 5 30).1 rfl,
   (mergeChunkSegments_filters [⟨0, 1, "a", "A"⟩] [⟨4, 6, "b", "B"⟩] 5 30).2
     (by decide)⟩

/-- The accumulated-side segment of end-to-end scenario C: a segment
spanning the seam, ending at 241, reported by the earlier chunk. -/
def seamAccSeg : Seg := ⟨239, 241, "seam text from earlier chunk", "A"⟩

/-- The new-side segment of end-to-end scenario C: the same seam-spanning
span as reported by the later chunk, already rebased to absolute time. -/
def seamNewSeg : Seg := ⟨239, 241, "seam text from later chunk", "A"⟩

/-- C2 counterexample: with `chunkStartTime = 240`, the accumulated segment
with `end = 241` satisfies `241 ≤ 240 + 1` and is kept, and the new segment
with `start = 239` satisfies `239 ≥ 240 - 1` and is kept, so both
seam-straddling segments appear in the merged result — the claim that
neither appears is false. -/
theorem seam_segments_not_dropped :
    mergeChunkSegments [seamAccSeg] [seamNewSeg] 240 30 = [seamAccSeg, seamNewSeg] ∧
    seamAccSeg ∈ mergeChunkSegments [seamAccSeg] [seamNewSeg] 240 30 ∧
    seamNewSeg ∈ mergeChunkSegments [seamAccSeg] [seamNewSeg] 240 30 := by
  have h : mergeChunkSegments [seamAccSeg] [seamNewSeg] 240 30 =
      [seamAccSeg, seamNewSeg] := by
    simp only [mergeChunkSegments, seamAccSeg, seamNewSeg, List.filter_cons,
      List.filter_nil, List.length_cons, List.length_nil]
    norm_num
  refine ⟨h, ?_, ?_⟩ <;> simp [h]

/-- C2 amended: the merge filters are boundary-inclusive, so when two
adjacent chunks both report a segment spanning the seam at t = 239–241 s and
the new chunk starts at 240 s, the accumulated-side segment (`end = 241 =
overlapStart + 1`) is kept and the new-side segment (`start = 239 =
overlapStart - 1`) is kept: both seam-straddling segments appear in the
merged result. -/
theorem seam_segments_kept :
    (seamAccSeg.endTime = 240 + 1 ∧ seamNewSeg.start = 240 - 1) ∧
    mergeChunkSegments [seamAccSeg] [seamNewSeg] 240 30 = [seamAccSeg, seamNewSeg] := by
  refine ⟨⟨by norm_num [seamAccSeg], by norm_num [seamNewSeg]⟩, ?_⟩
  simp only [mergeChunkSegments, seamAccSeg, seamNewSeg, List.filter_cons,
    List.filter_nil, List.length_cons, List.length_nil]
  norm_num

/-- An audio chunk descriptor as produced by `splitAudioIntoChunks` in the
ffmpeg helper module: absolute start/end time in the source, and whether the
descriptor is the unsplit original file.  The file path is omitted (it is
`basename_chunk_i.mp3`, derived from the index, and plays no role in the
claims about times). -/
structure Chunk where
  startTime : ℚ
  endTime : ℚ
  isOriginal : Bool
deriving DecidableEq, Repr

/-- One iteration of the `while (startTime < duration)` loop of
`splitAudioIntoChunks` (`src/unnamed/part_001`, lines 78–113): compute
`endTime = min(startTime + chunkDurationSeconds, duration)`, emit the chunk,
advance `startTime = endTime - overlapSeconds`, and break if
`duration - startTime < overlapSeconds * 2`.  The loop is embedded with a
fuel argument; each fuel step is exactly one loop iteration, so for any fuel
the emitted list is a prefix of the loop's output, and with sufficient fuel
it is the whole output. -/
def splitLoop (duration chunkDurationSeconds overlapSeconds : ℚ) :
    ℚ → ℕ → List Chunk
  | _, 0 => []
  | startTime, fuel + 1 =>
    if startTime < duration then
      let endTime := min (startTime + chunkDurationSeconds) duration
      let next := endTime - overlapSeconds
      if duration - next < overlapSeconds * 2 then
        [⟨startTime, endTime, false⟩]
      else
        Chunk.mk startTime endTime false ::
          splitLoop duration chunkDurationSeconds overlapSeconds next fuel
    else []

/-- Fuel bound for `splitLoop`: the loop advances its start time by
`chunkDurationSeconds - overlapSeconds` on every non-final iteration, so
`⌈duration / (chunkDurationSeconds - overlapSeconds)⌉ + 1` iterations always
suffice when `chunkDurationSeconds > overlapSeconds` (as in the route, where
the chunk duration is at least 60 s and the overlap is 30 s). -/
def splitFuel (duration chunkDurationSeconds overlapSeconds : ℚ) : ℕ :=
  (⌈duration / (chunkDurationSeconds - overlapSeconds)⌉).toNat + 1

/-- Embedding of `splitAudioIntoChunks(audioPath, outputDir,
chunkDurationSeconds, overlapSeconds)` (`src/unnamed/part_001`, lines
65–116), abstracted over the probed duration: a source no longer than one
chunk yields a single original descriptor; otherwise the overlap-adjusted
sliding-window loop runs. -/
def splitAudioIntoChunks (duration chunkDurationSeconds overlapSeconds : ℚ) :
    List Chunk :=
  if duration ≤ chunkDurationSeconds then
    [⟨0, duration, true⟩]
  else
    splitLoop duration chunkDurationSeconds overlapSeconds 0
      (splitFuel duration chunkDurationSeconds overlapSeconds)

lemma splitLoop_endTime_eq (D C O : ℚ) :
    ∀ (fuel : ℕ) (s : ℚ), ∀ c ∈ splitLoop D C O s fuel,
      c.endTime = min (c.startTime + C) D := by
  intro fuel
  induction fuel with
  | zero => intro s c hc; simp [splitLoop] at hc
  | succ n ih =>
    intro s c hc
    simp only [splitLoop] at hc
    split at hc
    · split at hc
      · rcases List.mem_singleton.mp hc with rfl
        rfl
      · rcases List.mem_cons.mp hc with rfl | hc
        · rfl
        · exact ih _ c hc
    · simp at hc

lemma splitLoop_head_startTime (D C O : ℚ) (fuel : ℕ) (s : ℚ) (c : Chunk)
    (rest : List Chunk) (h : splitLoop D C O s fuel = c :: rest) :
    c.startTime = s := by
  cases fuel with
  | zero => simp [splitLoop] at h
  | succ n =>
    simp only [splitLoop] at h
    split at h
    · split at h
      · rcases h with ⟨rfl, rfl⟩
        rfl
      · rcases h with ⟨rfl, rfl⟩
        rfl
    · simp at h

lemma splitLoop_chain (D C O : ℚ) :
    ∀ (fuel : ℕ) (s : ℚ),
      List.Chain' (fun a b => b.startTime = a.endTime - O)
        (splitLoop D C O s fuel) := by
  intro fuel
  induction fuel with
  | zero => intro s; simp [splitLoop]
  | succ n ih =>
    intro s
    simp only [splitLoop]
    split
    · split
      · simp
      · rw [List.chain'_cons']
        refine ⟨?_, ih _⟩
        intro y hy
        rcases hrest : splitLoop D C O (min (s + C) D - O) n with _ | ⟨c, rest⟩
        · rw [hrest] at hy; simp at hy
        · rw [hrest] at hy
          simp only [List.head?_cons, Option.mem_def, Option.some.injEq] at hy
          subst hy
          exact splitLoop_head_startTime D C O n _ c rest hrest
    · simp

/-- C9: for every duration `D` greater than the chunk duration `C` and any
overlap `O`, consecutive chunk descriptors satisfy
`start_{i+1} = end_i - O`, and every emitted window `i` covers exactly
`[start_i, min(start_i + C, D)]` (in particular the final chunk also ends at
`min(start + C, D)`, which satisfies the claim's allowance that it may
extend to `D`). -/
theorem split_consecutive_overlap (D C O : ℚ) (h : C < D) :
    (∀ i (hi : i + 1 < (splitAudioIntoChunks D C O).length),
      ((splitAudioIntoChunks D C O).get ⟨i + 1, hi⟩).startTime =
        ((splitAudioIntoChunks D C O).get ⟨i, Nat.lt_of_succ_lt hi⟩).endTime - O) ∧
    (∀ c ∈ splitAudioIntoChunks D C O, c.endTime = min (c.startTime + C) D) := by
  have hne : ¬ D ≤ C := not_le.mpr h
  have heq : splitAudioIntoChunks D C O = splitLoop D C O 0 (splitFuel D C O) := by
    simp only [splitAudioIntoChunks, if_neg hne]
  constructor
  · intro i
    rw [heq]
    intro hi
    have hchain := splitLoop_chain D C O (splitFuel D C O) 0
    rw [List.chain'_iff_get] at hchain
    exact hchain i (by omega)
  · intro c hc
    simp only [splitAudioIntoChunks, if_neg hne] at hc
    exact splitLoop_endTime_eq D C O _ 0 c hc

/-- Witness for C9: the theorem applied at a 30-minute source with 4-minute
chunks and 30-second overlap. -/
theorem split_consecutive_overlap_witness :
    (240 : ℚ) < 1800 ∧
    ∀ c ∈ splitAudioIntoChunks 1800 240 30, c.endTime = min (c.startTime + 240) 1800 :=
  ⟨by norm_num, (split_consecutive_overlap 1800 240 30 (by norm_num)).2⟩

/-- C3 (code bug evaluation): at duration 250 s, chunk duration 240 s and
overlap 30 s, the loop emits the single window `[0, 240]` and then breaks
(the advanced start 210 leaves a 40 s tail, shorter than `2 × 30`), without
extending that window: the last emitted descriptor ends at 240, not at the
source duration 250, so the final 10 seconds of audio are in no chunk —
contradicting both the claim and the code's own comment that the short
remainder is included in the last chunk. -/
theorem splitAudioIntoChunks_tail_dropped :
    splitAudioIntoChunks 250 240 30 = [⟨0, 240, false⟩] ∧ (240 : ℚ) ≠ 250 := by
  constructor
  · norm_num [splitAudioIntoChunks, splitFuel, splitLoop, min_def]
  · norm_num

/-- Hard limit on audio file size (MB) from `src/server/routes/transcribe.js`. -/
def MAX_FILE_SIZE_MB : ℚ := 24

/-- Hard limit on audio duration (seconds) from the route. -/
def MAX_DURATION_SECONDS : ℚ := 1200

/-- Maximum chunk duration (seconds) from the route. -/
def MAX_CHUNK_DURATION_SECONDS : ℚ := 900

/-- Fixed chunk overlap (seconds) from the route. -/
def CHUNK_OVERLAP_SECONDS : ℚ := 30

/-- The route's chunk duration: the user's `chunkMinutes` converted to
seconds, capped at `MAX_CHUNK_DURATION_SECONDS`. -/
def chunkDurationSecondsOf (userChunkMinutes : ℚ) : ℚ :=
  min (userChunkMinutes * 60) MAX_CHUNK_DURATION_SECONDS

/-- `exceedsHardLimits` from the route (line 140). -/
def exceedsHardLimits (audioDuration audioFileSizeMB : ℚ) : Bool :=
  decide (audioDuration > MAX_DURATION_SECONDS) ||
    decide (audioFileSizeMB > MAX_FILE_SIZE_MB)

/-- `benefitsFromParallel` from the route (line 141): chunk if the duration
exceeds 1.5 times the chunk size. -/
def benefitsFromParallel (audioDuration chunkDurationSeconds : ℚ) : Bool :=
  decide (audioDuration > chunkDurationSeconds * 1.5)

/-- `needsChunking` from the route (line 142). -/
def needsChunking (audioDuration audioFileSizeMB chunkDurationSeconds : ℚ) : Bool :=
  exceedsHardLimits audioDuration audioFileSizeMB ||
    benefitsFromParallel audioDuration chunkDurationSeconds

/-- The `chunked`/`chunksUsed` pair of the route's success response
(lines 269–270): `chunked = needsChunking` and `chunksUsed` is
`Math.ceil(audioDuration / chunkDurationSeconds)` when chunking occurred,
`1` otherwise. -/
def transcribeResponseMeta (audioDuration audioFileSizeMB userChunkMinutes : ℚ) :
    Bool × ℤ :=
  let c := chunkDurationSecondsOf userChunkMinutes
  let needs := needsChunking audioDuration audioFileSizeMB c
  (needs, if needs then ⌈audioDuration / c⌉ else 1)

/-- C6 counterexample: for a 30-minute source (1800 s, 20 MB) with 4-minute
chunks, the response reports `chunksUsed = ⌈1800/240⌉ = 8`, but the
overlap-adjusted split actually produces 9 chunk descriptors — the reported
count does not equal the number of descriptors produced and dispatched. -/
theorem chunksUsed_mismatch :
    transcribeResponseMeta 1800 20 4 = (true, 8) ∧
    (splitAudioIntoChunks 1800 (chunkDurationSecondsOf 4) CHUNK_OVERLAP_SECONDS).length = 9 ∧
    (8 : ℤ) ≠ 9 := by
  have hc : chunkDurationSecondsOf 4 = 240 := by
    norm_num [chunkDurationSecondsOf, MAX_CHUNK_DURATION_SECONDS, min_def]
  have h9 : (⌈(1800 : ℚ) / (240 - 30)⌉ : ℤ) = 9 := by
    rw [Int.ceil_eq_iff]
    constructor <;> norm_num
  have hfuel : splitFuel 1800 240 30 = 10 := by
    rw [splitFuel, h9]
    rfl
  refine ⟨?_, ?_, by norm_num⟩
  · simp only [transcribeResponseMeta, hc, needsChunking, exceedsHardLimits,
      benefitsFromParallel, MAX_DURATION_SECONDS, MAX_FILE_SIZE_MB]
    norm_num
    rw [Int.ceil_eq_iff]
    constructor <;> norm_num
  · rw [hc]
    simp only [CHUNK_OVERLAP_SECONDS, splitAudioIntoChunks, hfuel]
    norm_num [splitLoop, min_def]

/-- C6 amended: the response metadata reports whether chunking occurred
(`chunked` equals the `needsChunking` decision); when chunking is skipped
the reported count is 1; when chunking occurs the reported count is
`⌈duration / chunkDuration⌉` — an estimate that, because the split's
stepping is overlap-adjusted, can differ from the number of chunk
descriptors actually produced. -/
theorem chunksUsed_reported (d szMB m : ℚ) :
    (transcribeResponseMeta d szMB m).1 =
      needsChunking d szMB (chunkDurationSecondsOf m) ∧
    ((transcribeResponseMeta d szMB m).1 = false →
      (transcribeResponseMeta d szMB m).2 = 1) ∧
    ((transcribeResponseMeta d szMB m).1 = true →
      (transcribeResponseMeta d szMB m).2 = ⌈d / chunkDurationSecondsOf m⌉) := by
  refine ⟨rfl, ?_, ?_⟩ <;>
    · intro h
      simp only [transcribeResponseMeta] at h ⊢
      simp [h]

/-- Witness for C6's amended theorem: both branches applied at concrete
inputs (a 1800 s file that is chunked, and a 100 s file that is not). -/
theorem chunksUsed_reported_witness :
    (transcribeResponseMeta 1800 20 4).2 = ⌈(1800 : ℚ) / chunkDurationSecondsOf 4⌉ ∧
    (transcribeResponseMeta 100 1 4).2 = 1 := by
  constructor
  · refine (chunksUsed_reported 1800 20 4).2.2 ?_
    simp only [transcribeResponseMeta, needsChunking, exceedsHardLimits,
      benefitsFromParallel, MAX_DURATION_SECONDS, MAX_FILE_SIZE_MB]
    norm_num
  · refine (chunksUsed_reported 100 1 4).2.1 ?_
    simp only [transcribeResponseMeta, needsChunking, exceedsHardLimits,
      benefitsFromParallel, MAX_DURATION_SECONDS, MAX_FILE_SIZE_MB,
      chunkDurationSecondsOf, MAX_CHUNK_DURATION_SECONDS]
    norm_num [min_def]

/-- One tagged transcription result as collected by the route's parallel
dispatch (line 206): the chunk's sequence index `i`, the chunk descriptor's
start time, the backend's chunk-relative segments, and the backend-reported
duration. -/
structure TaggedResult where
  index : ℕ
  startTime : ℚ
  segments : List Seg
  duration : ℚ
deriving DecidableEq, Repr

/-- Rebasing of one backend segment to absolute time (route lines 218–222):
add the chunk's start offset to `start` and `end`. -/
def rebaseSegment (offset : ℚ) (seg : Seg) : Seg :=
  { seg with start := seg.start + offset, endTime := seg.endTime + offset }

/-- One iteration of the route's merge loop (lines 216–229): rebase the
chunk's segments and merge them into the accumulator with the fixed
30-second overlap. -/
def mergeStep (acc : List Seg) (t : TaggedResult) : List Seg :=
  mergeChunkSegments acc (t.segments.map (rebaseSegment t.startTime))
    t.startTime CHUNK_OVERLAP_SECONDS

/-- The route's re-sort of collected results by chunk sequence index
(line 214, `sort((a, b) => a.index - b.index)`), modelled as a sort by the
total preorder `index ≤ index`. -/
def sortResults (l : List TaggedResult) : List TaggedResult :=
  l.insertionSort (fun a b => a.index ≤ b.index)

/-- The final merged segment list of a chunked run: collected results are
re-sorted by sequence index, then folded through the per-chunk merge in
that order starting from the empty accumulator. -/
def finalMergedSegments (l : List TaggedResult) : List Seg :=
  (sortResults l).foldl mergeStep []

/-- C4: for every list of tagged chunk results with pairwise-distinct
sequence indices, and for every permutation of it (that is, for every
completion order of the concurrent transcription calls), re-sorting by
sequence index and folding the per-chunk merge yields an identical final
merged segment list: completion order never leaks into merge order. -/
theorem dispatch_perm_invariant (l₁ l₂ : List TaggedResult)
    (hperm : l₁.Perm l₂)
    (hnodup : (l₁.map TaggedResult.index).Nodup) :
    finalMergedSegments l₁ = finalMergedSegments l₂ := by
  letI : IsAntisymm TaggedResult (fun a b => a.index < b.index) :=
    ⟨fun a b hab hba => absurd hba (Nat.lt_asymm hab)⟩
  letI : IsTotal TaggedResult (fun a b => a.index ≤ b.index) :=
    ⟨fun a b => Nat.le_total a.index b.index⟩
  letI : IsTrans TaggedResult (fun a b => a.index ≤ b.index) :=
    ⟨fun _ _ _ hab hbc => Nat.le_trans hab hbc⟩
  have hp1 : (sortResults l₁).Perm l₁ := List.perm_insertionSort _ _
  have hp2 : (sortResults l₂).Perm l₂ := List.perm_insertionSort _ _
  have hperm' : (sortResults l₁).Perm (sortResults l₂) :=
    (hp1.trans hperm).trans hp2.symm
  have hnodup1 : ((sortResults l₁).map TaggedResult.index).Nodup :=
    (hp1.map TaggedResult.index).nodup_iff.mpr hnodup
  have hnodup2 : ((sortResults l₂).map TaggedResult.index).Nodup :=
    ((hp2.map TaggedResult.index).trans (hperm.map TaggedResult.index).symm).nodup_iff.mpr
      hnodup
  have hne1 : (sortResults l₁).Pairwise (fun a b => a.index ≠ b.index) :=
    List.pairwise_map.mp hnodup1
  have hne2 : (sortResults l₂).Pairwise (fun a b => a.index ≠ b.index) :=
    List.pairwise_map.mp hnodup2
  have hsorted1 : (sortResults l₁).Pairwise (fun a b => a.index ≤ b.index) :=
    List.sorted_insertionSort _ _
  have hsorted2 : (sortResults l₂).Pairwise (fun a b => a.index ≤ b.index) :=
    List.sorted_insertionSort _ _
  have hlt1 : (sortResults l₁).Pairwise (fun a b => a.index < b.index) :=
    (hsorted1.and hne1).imp fun h => lt_of_le_of_ne h.1 h.2
  have hlt2 : (sortResults l₂).Pairwise (fun a b => a.index < b.index) :=
    (hsorted2.and hne2).imp fun h => lt_of_le_of_ne h.1 h.2
  have hs : sortResults l₁ = sortResults l₂ :=
    List.eq_of_perm_of_sorted hperm' hlt1 hlt2
  simp only [finalMergedSegments, hs]

/-- First tagged result used in the C4 witness. -/
def wres1 : TaggedResult := ⟨0, 0, [⟨0, 5, "hello", "A"⟩], 240⟩

/-- Second tagged result used in the C4 witness. -/
def wres2 : TaggedResult := ⟨1, 210, [⟨0, 5, "world", "B"⟩], 40⟩

/-- Witness for C4: the two completion orders of a concrete two-chunk run
merge to the same final list. -/
theorem dispatch_perm_invariant_witness :
    finalMergedSegments [wres1, wres2] = finalMergedSegments [wres2, wres1] :=
  dispatch_perm_invariant [wres1, wres2] [wres2, wres1]
    (List.Perm.swap wres2 wres1 []) (by decide)

/-- First chunk of the C5 counterexample: the chunk starting at 0 reports a
single (hence ascending) segment late in its window, at 211–211 s. -/
def badChunk1 : TaggedResult := ⟨0, 0, [⟨211, 211, "tail segment", "A"⟩], 240⟩

/-- Second chunk of the C5 counterexample: the chunk starting at 210 reports
a single segment at relative 0–2 s, i.e. absolute 210–212 s. -/
def badChunk2 : TaggedResult := ⟨1, 210, [⟨0, 2, "overlap segment", "B"⟩], 40⟩

/-- C5 counterexample: each chunk's backend result is ascending by start
(both are singletons), yet the final fold keeps the accumulated segment
ending at 211 (`211 ≤ 210 + 1`) ahead of the new segment starting at 210
(`210 ≥ 210 - 1`), so the final merged transcript has starts 211, 210 — not
sorted ascending. -/
theorem merged_not_sorted :
    (∀ t ∈ [badChunk1, badChunk2],
      t.segments.Pairwise (fun a b => a.start ≤ b.start)) ∧
    ¬ (finalMergedSegments [badChunk1, badChunk2]).Pairwise
        (fun a b => a.start ≤ b.start) := by
  constructor
  · intro t ht
    rcases List.mem_cons.mp ht with rfl | ht
    · simp [badChunk1]
    · rcases List.mem_singleton.mp ht with rfl
      simp [badChunk2]
  · have hval : finalMergedSegments [badChunk1, badChunk2] =
        [⟨211, 211, "tail segment", "A"⟩, ⟨210, 212, "overlap segment", "B"⟩] := by
      norm_num [finalMergedSegments, sortResults, List.insertionSort,
        List.orderedInsert, badChunk1, badChunk2, mergeStep, mergeChunkSegments,
        rebaseSegment, CHUNK_OVERLAP_SECONDS, List.filter_cons]
    rw [hval]
    intro hpair
    rcases List.pairwise_cons.mp hpair with ⟨hrel, -⟩
    have h := hrel _ (List.mem_cons_self _ _)
    norm_num at h

lemma mergeStep_tolerance (acc : List Seg) (t : TaggedResult)
    (hacc : acc.Pairwise (fun a b => a.start ≤ b.start + 1))
    (haccWf : ∀ g ∈ acc, g.start ≤ g.endTime)
    (hsorted : t.segments.Pairwise (fun a b => a.start ≤ b.start))
    (hwf : ∀ g ∈ t.segments, 0 ≤ g.start ∧ g.start ≤ g.endTime) :
    (mergeStep acc t).Pairwise (fun a b => a.start ≤ b.start + 1) ∧
    (∀ g ∈ mergeStep acc t, g.start ≤ g.endTime) := by
  have hnewPair : (t.segments.map (rebaseSegment t.startTime)).Pairwise
      (fun a b => a.start ≤ b.start + 1) := by
    rw [List.pairwise_map]
    refine hsorted.imp fun h => ?_
    simp only [rebaseSegment]
    linarith
  have hnewWf : ∀ g ∈ t.segments.map (rebaseSegment t.startTime),
      g.start ≤ g.endTime := by
    intro g hg
    rcases List.mem_map.mp hg with ⟨g0, hg0, rfl⟩
    simp only [rebaseSegment]
    have := (hwf g0 hg0).2
    linarith
  have hnewLow : ∀ g ∈ t.segments.map (rebaseSegment t.startTime),
      t.startTime ≤ g.start := by
    intro g hg
    rcases List.mem_map.mp hg with ⟨g0, hg0, rfl⟩
    simp only [rebaseSegment]
    have := (hwf g0 hg0).1
    linarith
  unfold mergeStep mergeChunkSegments
  split
  · exact ⟨hnewPair, hnewWf⟩
  · constructor
    · rw [List.pairwise_append]
      refine ⟨hacc.filter _, hnewPair.filter _, ?_⟩
      intro a ha b hb
      have haMem := List.mem_filter.mp ha
      have haEnd : a.endTime ≤ t.startTime + 1 := of_decide_eq_true haMem.2
      have hbMem := List.mem_filter.mp hb
      have hbLow : t.startTime ≤ b.start := hnewLow b hbMem.1
      have haWf := haccWf a haMem.1
      linarith
    · intro g hg
      rcases List.mem_append.mp hg with hg | hg
      · exact haccWf g (List.mem_filter.mp hg).1
      · exact hnewWf g (List.mem_filter.mp hg).1

lemma foldl_mergeStep_tolerance :
    ∀ (l : List TaggedResult) (acc : List Seg),
      acc.Pairwise (fun a b => a.start ≤ b.start + 1) →
      (∀ g ∈ acc, g.start ≤ g.endTime) →
      (∀ t ∈ l, t.segments.Pairwise (fun a b => a.start ≤ b.start)) →
      (∀ t ∈ l, ∀ g ∈ t.segments, 0 ≤ g.start ∧ g.start ≤ g.endTime) →
      (l.foldl mergeStep acc).Pairwise (fun a b => a.start ≤ b.start + 1) ∧
      (∀ g ∈ l.foldl mergeStep acc, g.start ≤ g.endTime) := by
  intro l
  induction l with
  | nil => intro acc h1 h2 _ _; exact ⟨h1, h2⟩
  | cons t rest ih =>
    intro acc h1 h2 h3 h4
    have hstep := mergeStep_tolerance acc t h1 h2
      (h3 t (List.mem_cons_self t rest))
      (h4 t (List.mem_cons_self t rest))
    simp only [List.foldl_cons]
    exact ih (mergeStep acc t) hstep.1 hstep.2
      (fun u hu => h3 u (List.mem_cons_of_mem t hu))
      (fun u hu => h4 u (List.mem_cons_of_mem t hu))

/-- C5 amended: if each chunk's backend result lists its segments in
ascending start order, and every backend segment has a nonnegative
chunk-relative start no greater than its end, then the final merged
transcript is sorted by start ascending up to the merge's one-second seam
tolerance: every earlier segment's start exceeds every later segment's
start by at most 1 second.  (Exact ascending order can fail by up to one
second at a chunk seam, as the counterexample shows.) -/
theorem merged_sorted_upto_tolerance (l : List TaggedResult)
    (hsorted : ∀ t ∈ l, t.segments.Pairwise (fun a b => a.start ≤ b.start))
    (hwf : ∀ t ∈ l, ∀ g ∈ t.segments, 0 ≤ g.start ∧ g.start ≤ g.endTime) :
    (finalMergedSegments l).Pairwise (fun a b => a.start ≤ b.start + 1) := by
  have hmem : ∀ t ∈ sortResults l, t ∈ l := fun t ht =>
    (List.perm_insertionSort _ l).mem_iff.mp ht
  exact (foldl_mergeStep_tolerance (sortResults l) [] (by simp) (by simp)
    (fun t ht => hsorted t (hmem t ht)) (fun t ht => hwf t (hmem t ht))).1

/-- Witness for C5's amended theorem: applied to the counterexample run
itself, whose merged output is out of order by exactly one second but within
the proved tolerance. -/
theorem merged_sorted_upto_tolerance_witness :
    (finalMergedSegments [badChunk1, badChunk2]).Pairwise
      (fun a b => a.start ≤ b.start + 1) := by
  refine merged_sorted_upto_tolerance [badChunk1, badChunk2] ?_ ?_
  · intro t ht
    rcases List.mem_cons.mp ht with rfl | ht
    · simp [badChunk1]
    · rcases List.mem_singleton.mp ht with rfl
      simp [badChunk2]
  · intro t ht g hg
    rcases List.mem_cons.mp ht with rfl | ht
    · simp only [badChunk1] at hg
      rcases List.mem_singleton.mp hg with rfl
      norm_num
    · rcases List.mem_singleton.mp ht with rfl
      simp only [badChunk2] at hg
      rcases List.mem_singleton.mp hg with rfl
      norm_num

/-- Abstract state of the files a chunked run of the route creates after
audio extraction: whether the extracted audio file is on disk, and which
chunk files (identified by their chunk index) are. -/
structure FsState where
  audio : Bool
  chunkFiles : List ℕ
deriving DecidableEq, Repr

/-- The failures a chunked run can hit after audio extraction: the split
itself rejecting, or some chunk's transcription call rejecting. -/
inductive PipelineError
  | splitError
  | transcriptionError (chunkIndex : ℕ)
deriving DecidableEq, Repr

/-- A description of one chunked run of the `/transcribe` route: how many
chunk files the split plans to create, whether the split fails while
encoding some chunk (and which), which chunk transcriptions fail, and which
file deletions (`fs.unlinkSync`) throw during cleanup. -/
structure RunSpec where
  plannedChunks : ℕ
  splitFailAt : Option ℕ
  transcribeFails : List ℕ
  unlinkFailsAudio : Bool
  unlinkFailsChunks : List ℕ
deriving DecidableEq, Repr

/-- Embedding of `cleanupFiles([audioPath, ...chunkFiles])`
(`src/server/routes/transcribe.js`, lines 335–345) applied to a file state:
each deletion is wrapped in its own try/catch whose error is logged and
swallowed, so cleanup always completes and never throws.  A chunk file
disappears exactly when it was in the tracked list passed to cleanup and its
unlink did not throw; the audio file is always in the list, so it survives
only if its unlink throws. -/
def cleanupFiles (r : RunSpec) (fs : FsState) (tracked : List ℕ) : FsState :=
  { audio := fs.audio && r.unlinkFailsAudio,
    chunkFiles := fs.chunkFiles.filter
      (fun i => decide (i ∉ tracked) || decide (i ∈ r.unlinkFailsChunks)) }

/-- Embedding of the chunked branch of the `/transcribe` route handler
(lines 116–291) from the point where audio extraction has succeeded, as a
function from a run description to the surfaced error and the files left on
disk.  It follows the source's control flow: `chunkFiles` starts empty
(line 116) and is populated only after `splitAudioIntoChunks` resolves
(lines 182–186), so if the split rejects while encoding chunk `k`, chunks
`0..k-1` are on disk (chunk `k`'s partial file was already deleted by
`safeDelete` in the ffmpeg module) but the catch block's
`cleanupFiles([audioPath, ...chunkFiles])` receives an empty tracked list;
if the split resolves, all planned chunks are on disk and tracked, a failed
`Promise.all` surfaces the first failing chunk's error, and both the catch
path (line 280) and the success path (line 263) clean the audio file plus
every tracked chunk file. -/
def runChunkedPipeline (r : RunSpec) : Option PipelineError × FsState :=
  match r.splitFailAt with
  | some k =>
    (some PipelineError.splitError,
      cleanupFiles r ⟨true, List.range (min k r.plannedChunks)⟩ [])
  | none =>
    let fs : FsState := ⟨true, List.range r.plannedChunks⟩
    let tracked := List.range r.plannedChunks
    match (List.range r.plannedChunks).find?
        (fun i => decide (i ∈ r.transcribeFails)) with
    | some i => (some (PipelineError.transcriptionError i), cleanupFiles r fs tracked)
    | none => (none, cleanupFiles r fs tracked)

/-- C7 counterexample: a run whose split fails while encoding chunk 1 of 3
planned chunks (a pipeline stage after audio extraction) surfaces the split
error with chunk file 0 still on disk — the route's `chunkFiles` tracking
array is populated only after the split resolves, so the already-created
chunk file is never removed, contradicting the claim that every chunk file
the pipeline created is removed before the error is surfaced. -/
theorem split_failure_orphans_chunk :
    (runChunkedPipeline ⟨3, some 1, [], false, []⟩).1 =
      some PipelineError.splitError ∧
    (runChunkedPipeline ⟨3, some 1, [], false, []⟩).2.chunkFiles = [0] ∧
    ([0] : List ℕ) ≠ ([] : List ℕ) := by
  refine ⟨?_, ?_, ?_⟩ <;> decide

/-- C7 amended: for every failure in a pipeline stage after the split has
completed (in particular any chunk transcription failure), before the error
is surfaced the extracted audio file and every chunk file the pipeline
created are removed — including chunks whose own transcription succeeded —
except files whose own deletion threw; and deletion errors are swallowed
inside cleanup, never propagated, so the surfaced error is identical to the
one of a run with no deletion failures.  (A failure during the split itself
can orphan chunk files created before the failing chunk.) -/
theorem cleanup_after_split_completes (r : RunSpec)
    (hsplit : r.splitFailAt = none) :
    (∀ i ∈ (runChunkedPipeline r).2.chunkFiles, i ∈ r.unlinkFailsChunks) ∧
    ((runChunkedPipeline r).2.audio = true → r.unlinkFailsAudio = true) ∧
    (runChunkedPipeline r).1 =
      (runChunkedPipeline ⟨r.plannedChunks, none, r.transcribeFails, false, []⟩).1 := by
  have hstate : (runChunkedPipeline r).2 =
      cleanupFiles r ⟨true, List.range r.plannedChunks⟩ (List.range r.plannedChunks) := by
    simp only [runChunkedPipeline, hsplit]
    cases (List.range r.plannedChunks).find? (fun i => decide (i ∈ r.transcribeFails)) <;>
      rfl
  refine ⟨?_, ?_, ?_⟩
  · intro i hi
    rw [hstate] at hi
    simp only [cleanupFiles, List.mem_filter] at hi
    rcases hi with ⟨hrange, hcond⟩
    rcases Bool.or_eq_true_iff.mp hcond with h | h
    · exact absurd hrange (of_decide_eq_true h)
    · exact of_decide_eq_true h
  · intro h
    rw [hstate] at h
    simpa only [cleanupFiles, Bool.true_and] using h
  · simp only [runChunkedPipeline, hsplit]
    cases (List.range r.plannedChunks).find? (fun i => decide (i ∈ r.transcribeFails)) <;>
      rfl

/-- Witness for C7's amended theorem: in the spec's failure scenario (chunk
2 of 4 fails, no deletion failures) no chunk file and no audio file remains
on disk. -/
theorem cleanup_after_split_completes_witness :
    (runChunkedPipeline ⟨4, none, [1], false, []⟩).2.chunkFiles = ([] : List ℕ) ∧
    (runChunkedPipeline ⟨4, none, [1], false, []⟩).2.audio = false :=
  ⟨List.eq_nil_iff_forall_not_mem.mpr fun i hi =>
      absurd ((cleanup_after_split_completes ⟨4, none, [1], false, []⟩ rfl).1 i hi)
        (List.not_mem_nil i),
   Bool.eq_false_iff.mpr fun h =>
      Bool.false_ne_true
        ((cleanup_after_split_completes ⟨4, none, [1], false, []⟩ rfl).2.1 h)⟩

/-- An output segment of `processTranscription`: a fresh sequential id plus
the segment's times and text, with the resolved speaker display name. -/
structure OutSeg where
  id : ℕ
  start : ℚ
  endTime : ℚ
  text : String
  speaker : String
deriving DecidableEq, Repr

/-- The route's generic-speaker test, the regex `/^[A-Z]$/` (line 362): the
string is exactly one character, an uppercase Latin letter. -/
def isGenericSpeakerLabel (s : String) : Bool :=
  match s.toList with
  | [c] => decide ('A' ≤ c) && decide (c ≤ 'Z')
  | _ => false

/-- `segment.speaker || 'Unknown'` (line 359): an absent or empty speaker
string is replaced by `"Unknown"` (both are falsy in JS). -/
def speakerOrUnknown (s : String) : String :=
  if s = "" then "Unknown" else s

/-- `unknownLabels[unknownIndex] || 'Speaker ' + speaker` (line 364): the
label at the current index, unless the index is out of range or the
configured label is the empty string (both falsy), in which case the
fallback is `"Speaker "` followed by the generic code itself. -/
def fallbackLabel (unknownLabels : List String) (unknownIndex : ℕ)
    (speaker : String) : String :=
  match unknownLabels.get? unknownIndex with
  | some l => if l = "" then "Speaker " ++ speaker else l
  | none => "Speaker " ++ speaker

/-- The traversal of `processTranscription` (`src/server/routes/
transcribe.js`, lines 348–378): `segments.map((segment, index) => ...)`
with the closure mutating `speakerMap` (an object, modelled as an
association list) and `unknownIndex`; embedded as structural recursion
carrying the running index and that state.  Each segment's speaker is
defaulted to `"Unknown"` if falsy; a generic single-uppercase-letter code
is looked up in the map, and on a miss the next fallback label is assigned
to it and the index advanced; anything else passes through. -/
def processGo (unknownLabels : List String) :
    ℕ → List (String × String) → ℕ → List Seg → List OutSeg
  | _, _, _, [] => []
  | index, speakerMap, unknownIndex, segment :: rest =>
    let speaker0 := speakerOrUnknown segment.speaker
    if isGenericSpeakerLabel speaker0 then
      match speakerMap.lookup speaker0 with
      | some mapped =>
        ⟨index, segment.start, segment.endTime, segment.text, mapped⟩ ::
          processGo unknownLabels (index + 1) speakerMap unknownIndex rest
      | none =>
        ⟨index, segment.start, segment.endTime, segment.text,
            fallbackLabel unknownLabels unknownIndex speaker0⟩ ::
          processGo unknownLabels (index + 1)
            ((speaker0, fallbackLabel unknownLabels unknownIndex speaker0) :: speakerMap)
            (unknownIndex + 1) rest
    else
      ⟨index, segment.start, segment.endTime, segment.text, speaker0⟩ ::
        processGo unknownLabels (index + 1) speakerMap unknownIndex rest

/-- `processTranscription(transcription, config)`: map the segments with
ids starting at 0, an empty speaker map and `unknownIndex = 0`. -/
def processTranscription (segments : List Seg) (unknownLabels : List String) :
    List OutSeg :=
  processGo unknownLabels 0 [] 0 segments

/-- Record a generic code as seen, keeping first-occurrence order. -/
def firstSeenInsert (seen : List String) (s : String) : List String :=
  if s ∈ seen then seen else seen ++ [s]

/-- Advance the seen-codes list over one segment. -/
def seenStep (seen : List String) (g : Seg) : List String :=
  if isGenericSpeakerLabel (speakerOrUnknown g.speaker) then
    firstSeenInsert seen (speakerOrUnknown g.speaker)
  else seen

/-- The seen-codes list after a list of segments. -/
def seenAfter (seen : List String) (segs : List Seg) : List String :=
  segs.foldl seenStep seen

/-- The distinct generic speaker codes of a run, in first-occurrence
order.  The k-th entry is the code that consumed `unknownLabels[k]`. -/
def distinctGenericCodes (segs : List Seg) : List String :=
  seenAfter [] segs

/-- Reference recursion equivalent to `processGo` that carries the
first-occurrence list of generic codes instead of the mutable map: each
generic occurrence is labelled by its code's position in that list. -/
def refGo (uL : List String) : List String → ℕ → List Seg → List OutSeg
  | _, _, [] => []
  | seen, index, g :: rest =>
    let s := speakerOrUnknown g.speaker
    if isGenericSpeakerLabel s then
      ⟨index, g.start, g.endTime, g.text,
          fallbackLabel uL ((firstSeenInsert seen s).indexOf s) s⟩ ::
        refGo uL (firstSeenInsert seen s) (index + 1) rest
    else
      ⟨index, g.start, g.endTime, g.text, s⟩ :: refGo uL seen (index + 1) rest

lemma indexOf_append_singleton_self (s : String) (seen : List String)
    (hmem : s ∉ seen) : (seen ++ [s]).indexOf s = seen.length := by
  rw [List.indexOf_append_of_not_mem hmem]
  simp [List.indexOf_cons]

lemma processGo_eq_refGo (uL : List String) :
    ∀ (segs : List Seg) (seen : List String) (index : ℕ)
      (speakerMap : List (String × String)),
      (∀ c, speakerMap.lookup c =
        if c ∈ seen then some (fallbackLabel uL (seen.indexOf c) c) else none) →
      processGo uL index speakerMap seen.length segs = refGo uL seen index segs := by
  intro segs
  induction segs with
  | nil => intro seen index speakerMap hmap; rfl
  | cons g rest ih =>
    intro seen index speakerMap hmap
    simp only [processGo, refGo]
    by_cases hgen : isGenericSpeakerLabel (speakerOrUnknown g.speaker) = true
    · rw [if_pos hgen, if_pos hgen]
      by_cases hmem : speakerOrUnknown g.speaker ∈ seen
      · have hlook := hmap (speakerOrUnknown g.speaker)
        rw [if_pos hmem] at hlook
        rw [hlook]
        have hfsi : firstSeenInsert seen (speakerOrUnknown g.speaker) = seen := by
          rw [firstSeenInsert, if_pos hmem]
        rw [hfsi]
        exact congrArg _ (ih seen (index + 1) speakerMap hmap)
      · have hlook := hmap (speakerOrUnknown g.speaker)
        rw [if_neg hmem] at hlook
        simp only [hlook]
        have hfsi : firstSeenInsert seen (speakerOrUnknown g.speaker) =
            seen ++ [speakerOrUnknown g.speaker] := by
          rw [firstSeenInsert, if_neg hmem]
        have hidx := indexOf_append_singleton_self (speakerOrUnknown g.speaker) seen hmem
        rw [hfsi, hidx]
        refine congrArg _ ?_
        have hlen : seen.length + 1 = (seen ++ [speakerOrUnknown g.speaker]).length := by
          simp
        rw [hlen]
        apply ih
        intro c
        rw [List.lookup_cons]
        by_cases hc : c = speakerOrUnknown g.speaker
        · subst hc
          simp only [beq_self_eq_true]
          rw [if_pos (List.mem_append_right seen
            (List.mem_singleton_self (speakerOrUnknown g.speaker))), hidx]
        · have hbeq : (c == speakerOrUnknown g.speaker) = false := by
            simp [hc]
          rw [hbeq]
          simp only [cond_false]
          rw [hmap c]
          by_cases hcs : c ∈ seen
          · rw [if_pos hcs,
              if_pos (List.mem_append_left [speakerOrUnknown g.speaker] hcs),
              List.indexOf_append_of_mem hcs]
          · rw [if_neg hcs, if_neg ?_]
            intro hmem2
            rcases List.mem_append.mp hmem2 with h | h
            · exact hcs h
            · exact hc (List.mem_singleton.mp h)
    · rw [if_neg hgen, if_neg hgen]
      exact congrArg _ (ih seen (index + 1) speakerMap hmap)

lemma refGo_length (uL : List String) :
    ∀ (segs : List Seg) (seen : List String) (index : ℕ),
      (refGo uL seen index segs).length = segs.length := by
  intro segs
  induction segs with
  | nil => intro seen index; rfl
  | cons g rest ih =>
    intro seen index
    simp only [refGo]
    split <;> simp [ih]

lemma seenAfter_cons (seen : List String) (g : Seg) (l : List Seg) :
    seenAfter seen (g :: l) = seenAfter (seenStep seen g) l := rfl

lemma refGo_get? (uL : List String) :
    ∀ (segs : List Seg) (seen : List String) (index : ℕ) (i : ℕ)
      (hi : i < segs.length),
      (refGo uL seen index segs).get? i =
        some ⟨index + i,
         (segs.get ⟨i, hi⟩).start,
         (segs.get ⟨i, hi⟩).endTime,
         (segs.get ⟨i, hi⟩).text,
         if isGenericSpeakerLabel (speakerOrUnknown (segs.get ⟨i, hi⟩).speaker)
         then fallbackLabel uL
           ((firstSeenInsert (seenAfter seen (segs.take i))
               (speakerOrUnknown (segs.get ⟨i, hi⟩).speaker)).indexOf
             (speakerOrUnknown (segs.get ⟨i, hi⟩).speaker))
           (speakerOrUnknown (segs.get ⟨i, hi⟩).speaker)
         else speakerOrUnknown (segs.get ⟨i, hi⟩).speaker⟩ := by
  intro segs
  induction segs with
  | nil => intro seen index i hi; exact absurd hi (Nat.not_lt_zero i)
  | cons g rest ih =>
    intro seen index i hi
    cases i with
    | zero =>
      have hget0 : ((g :: rest).get ⟨0, hi⟩) = g := rfl
      have hsa : seenAfter seen ((g :: rest).take 0) = seen := rfl
      rw [hget0, hsa]
      simp only [refGo]
      by_cases hgen : isGenericSpeakerLabel (speakerOrUnknown g.speaker) = true
      · rw [if_pos hgen, if_pos hgen]
        rfl
      · rw [if_neg hgen, if_neg hgen]
        rfl
    | succ n =>
      have hn : n < rest.length := Nat.lt_of_succ_lt_succ hi
      have hgetc : ((g :: rest).get ⟨n + 1, hi⟩) = rest.get ⟨n, hn⟩ := rfl
      have hseen : seenAfter seen ((g :: rest).take (n + 1)) =
          seenAfter (seenStep seen g) (rest.take n) := rfl
      rw [hgetc, hseen,
        show index + (n + 1) = (index + 1) + n from by omega]
      simp only [refGo]
      by_cases hgen : isGenericSpeakerLabel (speakerOrUnknown g.speaker) = true
      · rw [if_pos hgen, List.get?_cons_succ,
          show seenStep seen g = firstSeenInsert seen (speakerOrUnknown g.speaker)
            from by rw [seenStep, if_pos hgen]]
        exact ih (firstSeenInsert seen (speakerOrUnknown g.speaker)) (index + 1) n hn
      · rw [if_neg hgen, List.get?_cons_succ,
          show seenStep seen g = seen from by rw [seenStep, if_neg hgen]]
        exact ih seen (index + 1) n hn


lemma exists_suffix_seenAfter :
    ∀ (l : List Seg) (seen : List String), ∃ t, seenAfter seen l = seen ++ t := by
  intro l
  induction l with
  | nil => intro seen; exact ⟨[], by simp [seenAfter]⟩
  | cons g rest ih =>
    intro seen
    rw [seenAfter_cons]
    rcases ih (seenStep seen g) with ⟨t, ht⟩
    by_cases hgen : isGenericSpeakerLabel (speakerOrUnknown g.speaker) = true
    · by_cases hmem : speakerOrUnknown g.speaker ∈ seen
      · refine ⟨t, ?_⟩
        rw [ht, seenStep, if_pos hgen, firstSeenInsert, if_pos hmem]
      · refine ⟨[speakerOrUnknown g.speaker] ++ t, ?_⟩
        rw [ht, seenStep, if_pos hgen, firstSeenInsert, if_neg hmem]
        simp
    · refine ⟨t, ?_⟩
      rw [ht, seenStep, if_neg hgen]

lemma indexOf_seenAfter_of_mem (s : String) (seen : List String) (l : List Seg)
    (h : s ∈ seen) :
    (seenAfter seen l).indexOf s = seen.indexOf s ∧ s ∈ seenAfter seen l := by
  rcases exists_suffix_seenAfter l seen with ⟨t, ht⟩
  rw [ht]
  exact ⟨List.indexOf_append_of_mem h, List.mem_append_left t h⟩

lemma mem_firstSeenInsert (s : String) (seen : List String) :
    s ∈ firstSeenInsert seen s := by
  rw [firstSeenInsert]
  split
  · assumption
  · exact List.mem_append_right seen (List.mem_singleton_self s)

/-- The raw speaker string of the i-th input segment (empty string when out
of range). -/
def nthRawSpeaker (segs : List Seg) (i : ℕ) : String :=
  (segs.map Seg.speaker).getD i ""

/-- The resolved speaker string of the i-th output segment of
`processTranscription` (empty string when out of range). -/
def nthSpeaker (segs : List Seg) (uL : List String) (i : ℕ) : String :=
  ((processTranscription segs uL).map OutSeg.speaker).getD i ""

lemma processTranscription_eq_refGo (segs : List Seg) (uL : List String) :
    processTranscription segs uL = refGo uL [] 0 segs := by
  have h := processGo_eq_refGo uL segs [] 0 [] (by intro c; simp)
  simpa [processTranscription] using h

lemma processTranscription_length (segs : List Seg) (uL : List String) :
    (processTranscription segs uL).length = segs.length := by
  rw [processTranscription_eq_refGo, refGo_length]

lemma nthRawSpeaker_eq (segs : List Seg) (i : ℕ) (hi : i < segs.length) :
    nthRawSpeaker segs i = (segs.get ⟨i, hi⟩).speaker := by
  rw [nthRawSpeaker, List.getD_eq_get _ _ (by simpa using hi), List.get_map]

lemma distinctGenericCodes_split (segs : List Seg) (i : ℕ) (hi : i < segs.length)
    (hgen : isGenericSpeakerLabel (speakerOrUnknown (segs.get ⟨i, hi⟩).speaker) = true) :
    distinctGenericCodes segs =
      seenAfter
        (firstSeenInsert (seenAfter [] (segs.take i))
          (speakerOrUnknown (segs.get ⟨i, hi⟩).speaker))
        (segs.drop (i + 1)) := by
  have h1 : segs = segs.take (i + 1) ++ segs.drop (i + 1) :=
    (List.take_append_drop (i + 1) segs).symm
  have h2 : segs.take (i + 1) = segs.take i ++ [segs.get ⟨i, hi⟩] := by
    rw [← List.take_concat_get segs i hi, List.concat_eq_append]
    rfl
  have h3 : seenAfter [] (segs.take (i + 1)) =
      firstSeenInsert (seenAfter [] (segs.take i))
        (speakerOrUnknown (segs.get ⟨i, hi⟩).speaker) := by
    rw [h2, seenAfter, List.foldl_append]
    simp only [List.foldl_cons, List.foldl_nil]
    rw [← seenAfter]
    rw [seenStep, if_pos hgen]
  conv_lhs => rw [distinctGenericCodes, h1]
  rw [seenAfter, List.foldl_append, ← seenAfter, ← seenAfter, h3]

lemma mem_distinctGenericCodes (segs : List Seg) (i : ℕ) (hi : i < segs.length)
    (hgen : isGenericSpeakerLabel (speakerOrUnknown (nthRawSpeaker segs i)) = true) :
    speakerOrUnknown (nthRawSpeaker segs i) ∈ distinctGenericCodes segs := by
  rw [nthRawSpeaker_eq segs i hi] at hgen ⊢
  rw [distinctGenericCodes_split segs i hi hgen]
  exact (indexOf_seenAfter_of_mem _ _ _ (mem_firstSeenInsert _ _)).2

lemma nthSpeaker_char (segs : List Seg) (uL : List String) (i : ℕ)
    (hi : i < segs.length) :
    nthSpeaker segs uL i =
      if isGenericSpeakerLabel (speakerOrUnknown (nthRawSpeaker segs i))
      then fallbackLabel uL
        ((distinctGenericCodes segs).indexOf
          (speakerOrUnknown (nthRawSpeaker segs i)))
        (speakerOrUnknown (nthRawSpeaker segs i))
      else speakerOrUnknown (nthRawSpeaker segs i) := by
  have hraw := nthRawSpeaker_eq segs i hi
  have hout : nthSpeaker segs uL i =
      (if isGenericSpeakerLabel (speakerOrUnknown (segs.get ⟨i, hi⟩).speaker)
       then fallbackLabel uL
         ((firstSeenInsert (seenAfter [] (segs.take i))
             (speakerOrUnknown (segs.get ⟨i, hi⟩).speaker)).indexOf
           (speakerOrUnknown (segs.get ⟨i, hi⟩).speaker))
         (speakerOrUnknown (segs.get ⟨i, hi⟩).speaker)
       else speakerOrUnknown (segs.get ⟨i, hi⟩).speaker) := by
    rw [nthSpeaker, processTranscription_eq_refGo, List.getD_eq_get?, List.get?_map,
      refGo_get? uL segs [] 0 i hi]
    rfl
  rw [hout, hraw]
  by_cases hgen :
      isGenericSpeakerLabel (speakerOrUnknown (segs.get ⟨i, hi⟩).speaker) = true
  · rw [if_pos hgen, if_pos hgen,
      distinctGenericCodes_split segs i hi hgen]
    rcases indexOf_seenAfter_of_mem (speakerOrUnknown (segs.get ⟨i, hi⟩).speaker)
      (firstSeenInsert (seenAfter [] (segs.take i))
        (speakerOrUnknown (segs.get ⟨i, hi⟩).speaker))
      (segs.drop (i + 1))
      (mem_firstSeenInsert _ _) with ⟨hidx, -⟩
    rw [hidx]
  · rw [if_neg hgen, if_neg hgen]

lemma fallbackLabel_lt (uL : List String) (k : ℕ) (s : String)
    (hk : k < uL.length) (hne : "" ∉ uL) :
    fallbackLabel uL k s = uL.getD k "" := by
  have hget : uL.get? k = some (uL.get ⟨k, hk⟩) := List.get?_eq_get hk
  have hmem : uL.get ⟨k, hk⟩ ∈ uL := List.get_mem uL k hk
  simp only [fallbackLabel, hget]
  rw [if_neg ?_, List.getD_eq_get _ _ hk]
  intro h
  rw [h] at hmem
  exact hne hmem

lemma fallbackLabel_ge (uL : List String) (k : ℕ) (s : String)
    (hk : uL.length ≤ k) :
    fallbackLabel uL k s = "Speaker " ++ s := by
  have hget : uL.get? k = none := List.get?_eq_none.mpr hk
  simp only [fallbackLabel, hget]

/-- C8 counterexample: a segment whose speaker is the empty string — a
speaker string that is not a single uppercase letter — is not passed through
unchanged: the code's `segment.speaker || 'Unknown'` default replaces it
with `"Unknown"`. -/
theorem empty_speaker_replaced :
    nthSpeaker [⟨0, 1, "hi", ""⟩] ["Interviewer"] 0 = "Unknown" ∧
    isGenericSpeakerLabel "" = false ∧
    ("Unknown" : String) ≠ "" := by
  refine ⟨?_, ?_, ?_⟩ <;> decide

/-- C8 amended: for every segment list and fallback label list whose labels
are pairwise distinct and nonempty, speaker normalization (a) passes any
nonempty speaker string that is not a single uppercase letter through
unchanged (an absent/empty speaker becomes "Unknown"); (b) assigns every
occurrence of the same generic code the same label — the mapping is
deterministic for a given code sequence; (c) maps the k-th distinct generic
code, in first-occurrence order, to the k-th fallback label in configured
order while labels remain; and (d) never assigns the same fallback label to
two different codes while fallback labels remain available. -/
theorem speaker_normalization (segs : List Seg) (uL : List String)
    (hnodup : uL.Nodup) (hne : "" ∉ uL) :
    (∀ i, i < segs.length → nthRawSpeaker segs i ≠ "" →
      isGenericSpeakerLabel (nthRawSpeaker segs i) = false →
      nthSpeaker segs uL i = nthRawSpeaker segs i) ∧
    (∀ i j, i < segs.length → j < segs.length →
      isGenericSpeakerLabel (speakerOrUnknown (nthRawSpeaker segs i)) = true →
      speakerOrUnknown (nthRawSpeaker segs i) =
        speakerOrUnknown (nthRawSpeaker segs j) →
      nthSpeaker segs uL i = nthSpeaker segs uL j) ∧
    (∀ i, i < segs.length →
      isGenericSpeakerLabel (speakerOrUnknown (nthRawSpeaker segs i)) = true →
      (distinctGenericCodes segs).indexOf
        (speakerOrUnknown (nthRawSpeaker segs i)) < uL.length →
      nthSpeaker segs uL i =
        uL.getD ((distinctGenericCodes segs).indexOf
          (speakerOrUnknown (nthRawSpeaker segs i))) "") ∧
    (∀ i j, i < segs.length → j < segs.length →
      isGenericSpeakerLabel (speakerOrUnknown (nthRawSpeaker segs i)) = true →
      isGenericSpeakerLabel (speakerOrUnknown (nthRawSpeaker segs j)) = true →
      speakerOrUnknown (nthRawSpeaker segs i) ≠
        speakerOrUnknown (nthRawSpeaker segs j) →
      (distinctGenericCodes segs).indexOf
        (speakerOrUnknown (nthRawSpeaker segs i)) < uL.length →
      (distinctGenericCodes segs).indexOf
        (speakerOrUnknown (nthRawSpeaker segs j)) < uL.length →
      nthSpeaker segs uL i ≠ nthSpeaker segs uL j) := by
  have hchar := nthSpeaker_char segs uL
  refine ⟨?_, ?_, ?_, ?_⟩
  · intro i hi hraw hgen
    have hsu : speakerOrUnknown (nthRawSpeaker segs i) = nthRawSpeaker segs i := by
      rw [speakerOrUnknown, if_neg hraw]
    rw [hchar i hi, hsu, if_neg (by rw [hgen]; exact Bool.false_ne_true)]
  · intro i j hi hj hgi heq
    have hgj : isGenericSpeakerLabel (speakerOrUnknown (nthRawSpeaker segs j)) = true := by
      rw [← heq]; exact hgi
    rw [hchar i hi, hchar j hj, if_pos hgi, if_pos hgj, heq]
  · intro i hi hgen hk
    rw [hchar i hi, if_pos hgen, fallbackLabel_lt uL _ _ hk hne]
  · intro i j hi hj hgi hgj hcodes hki hkj
    rw [hchar i hi, hchar j hj, if_pos hgi, if_pos hgj,
      fallbackLabel_lt uL _ _ hki hne, fallbackLabel_lt uL _ _ hkj hne,
      List.getD_eq_get _ _ hki, List.getD_eq_get _ _ hkj]
    intro hlab
    have hkeq : (distinctGenericCodes segs).indexOf
        (speakerOrUnknown (nthRawSpeaker segs i)) =
        (distinctGenericCodes segs).indexOf
          (speakerOrUnknown (nthRawSpeaker segs j)) := by
      have := (hnodup.get_inj_iff).mp hlab
      exact congrArg Fin.val this
    have hmi := mem_distinctGenericCodes segs i hi hgi
    have hmj := mem_distinctGenericCodes segs j hj hgj
    have h1 : (distinctGenericCodes segs).get
        ⟨(distinctGenericCodes segs).indexOf
          (speakerOrUnknown (nthRawSpeaker segs i)),
         List.indexOf_lt_length.mpr hmi⟩ =
        speakerOrUnknown (nthRawSpeaker segs i) := List.indexOf_get _
    have h2 : (distinctGenericCodes segs).get
        ⟨(distinctGenericCodes segs).indexOf
          (speakerOrUnknown (nthRawSpeaker segs j)),
         List.indexOf_lt_length.mpr hmj⟩ =
        speakerOrUnknown (nthRawSpeaker segs j) := List.indexOf_get _
    apply hcodes
    rw [← h1, ← h2]
    exact congrArg _ (Fin.ext hkeq)

/-- Witness for C8's amended theorem: two occurrences of the generic code
"A" receive the same resolved label. -/
theorem speaker_normalization_witness :
    nthSpeaker [⟨0, 1, "a", "A"⟩, ⟨1, 2, "b", "A"⟩] ["Interviewer", "Guest"] 0 =
      nthSpeaker [⟨0, 1, "a", "A"⟩, ⟨1, 2, "b", "A"⟩] ["Interviewer", "Guest"] 1 :=
  (speaker_normalization [⟨0, 1, "a", "A"⟩, ⟨1, 2, "b", "A"⟩]
      ["Interviewer", "Guest"] (by decide) (by decide)).2.1
    0 1 (by decide) (by decide) (by decide) (by decide)

/-- C10: a generic single-uppercase-letter code whose position among the
distinct generic codes (in first-occurrence order) is at or beyond the
number of configured fallback labels — i.e. a code first seen after the
fallback labels are exhausted — is mapped to `"Speaker "` followed by the
code itself, rather than failing or keeping the raw code. -/
theorem speaker_code_beyond_labels (segs : List Seg) (uL : List String)
    (i : ℕ) (hi : i < segs.length)
    (hgen : isGenericSpeakerLabel (speakerOrUnknown (nthRawSpeaker segs i)) = true)
    (hk : uL.length ≤ (distinctGenericCodes segs).indexOf
      (speakerOrUnknown (nthRawSpeaker segs i))) :
    nthSpeaker segs uL i = "Speaker " ++ speakerOrUnknown (nthRawSpeaker segs i) := by
  rw [nthSpeaker_char segs uL i hi, if_pos hgen, fallbackLabel_ge uL _ _ hk]

/-- Witness for C10: with a single fallback label, the second distinct code
"X" is mapped to "Speaker X". -/
theorem speaker_code_beyond_labels_witness :
    nthSpeaker [⟨0, 1, "a", "A"⟩, ⟨1, 2, "b", "X"⟩] ["Interviewer"] 1 =
      "Speaker " ++
        speakerOrUnknown (nthRawSpeaker [⟨0, 1, "a", "A"⟩, ⟨1, 2, "b", "X"⟩] 1) :=
  speaker_code_beyond_labels [⟨0, 1, "a", "A"⟩, ⟨1, 2, "b", "X"⟩] ["Interviewer"]
    1 (by decide) (by decide) (by decide)

end AlgoWhisperer
